import Mathlib

/-!
Verification of the chunking core of `translate_file_app_en_to_zh_chunking.py`.

Strings are modelled as `List Char` (a Python `str` is a sequence of unicode
code points, and every operation the program performs on them — `split`,
slicing, `len`, concatenation, truthiness — is a list operation).

The chunker `split_text_into_chunks` is translated line by line from the
source: the paragraph split on `"\n\n"` (greedy leftmost, as Python's
`str.split`), the oversized-paragraph while-loop over fixed-width slices,
the merge/flush accumulator logic, and the final flush.  The translation
loop of the button handler (lines 273-295) is modelled by `translateLoop`.
-/

namespace PdfTranslator

/-- The paragraph separator `"\n\n"` (source line 86 and the `+ 2` budget
on lines 101 and 125). -/
def sep : List Char := ['\n', '\n']

/-- `text.split('\n\n')` — Python's `str.split` with a literal separator:
greedy leftmost matching, keeping empty pieces.  `splitSep []` is `[[]]`,
matching `"".split("\n\n") == [""]`. -/
def splitSep : List Char → List (List Char)
  | [] => [[]]
  | [c] => [[c]]
  | c₁ :: c₂ :: rest =>
    if c₁ = '\n' ∧ c₂ = '\n' then
      [] :: splitSep rest
    else
      match splitSep (c₂ :: rest) with
      | [] => [[c₁]]
      | p :: ps => (c₁ :: p) :: ps

/-- Delete every greedy-leftmost occurrence of the separator `"\n\n"`.
`stripSeps t = (splitSep t).flatten` (proved below): the non-separator
content of a text, i.e. the characters of its paragraph bodies in order. -/
def stripSeps : List Char → List Char
  | [] => []
  | [c] => [c]
  | c₁ :: c₂ :: rest =>
    if c₁ = '\n' ∧ c₂ = '\n' then stripSeps rest
    else c₁ :: stripSeps (c₂ :: rest)

/-- Fuel-driven slicing helper; the fuel (first list-free argument) only
serves to make the recursion structural, and `forcedSlices` below always
supplies enough of it. -/
def sliceGo (mc : Nat) : Nat → List Char → List (List Char)
  | _, [] => []
  | 0, _ :: _ => []
  | fuel + 1, c :: cs => ((c :: cs).take mc) :: sliceGo mc fuel ((c :: cs).drop mc)

/-- The fixed-width slices `paragraph[start:end]`, `end = min(start + max_chars,
len(paragraph))`, produced by the while-loop on source lines 93-117, in order.
(For `mc = 0` the Python loop would not terminate; the claims only concern
`max_chars ≥ 1`.) -/
def forcedSlices (mc : Nat) (l : List Char) : List (List Char) :=
  sliceGo mc l.length l

/-- `current_chunk += "\n\n" + piece` when `current_chunk` is truthy, else
`current_chunk = piece` (source lines 102-105 and 126-129). -/
def chunkJoin (cur p : List Char) : List Char :=
  if cur = [] then p else cur ++ sep ++ p

/-- `if current_chunk: chunks.append(current_chunk)` — the guarded flush of
the accumulator (source lines 108-109 and, at the very end, 136-137). -/
def finishChunks (st : List (List Char) × List Char) : List (List Char) :=
  if st.2 = [] then st.1 else st.1 ++ [st.2]

/-- One iteration of the while-loop body for a slice of an oversized
paragraph (source lines 100-115).  State is `(chunks, current_chunk)`. -/
def sliceStep (mc : Nat) (st : List (List Char) × List Char) (s : List Char) :
    List (List Char) × List Char :=
  if st.2.length + s.length + 2 ≤ mc then
    (st.1, chunkJoin st.2 s)
  else if mc ≤ s.length then
    (finishChunks st ++ [s], [])
  else
    (finishChunks st, s)

/-- Processing of one paragraph (source lines 89-133): oversized paragraphs
are folded slice by slice through `sliceStep`; paragraphs that fit are merged
into the accumulator or flush it.  Note the flush on line 132 appends
`current_chunk` without a non-emptiness check. -/
def paraStep (mc : Nat) (st : List (List Char) × List Char) (p : List Char) :
    List (List Char) × List Char :=
  if mc < p.length then
    (forcedSlices mc p).foldl (sliceStep mc) st
  else if st.2.length + p.length + 2 ≤ mc then
    (st.1, chunkJoin st.2 p)
  else
    (st.1 ++ [st.2], p)

/-- `split_text_into_chunks(text, max_chars)` — source lines 80-139. -/
def split_text_into_chunks (text : List Char) (maxChars : Nat) :
    List (List Char) :=
  finishChunks ((splitSep text).foldl (paraStep maxChars) ([], []))

/-- Source line 17: the constant the application passes at the only call
site of the chunker (line 258). -/
def MAX_CHARS_PER_CHUNK : Nat := 2500

/-- The application's only invocation of the chunker (source line 258). -/
def appSplit (text : List Char) : List (List Char) :=
  split_text_into_chunks text MAX_CHARS_PER_CHUNK

/-- The while-loop of source lines 94-117 made explicit, with its start
index and a fuel bound on the number of iterations; `none` means the fuel
ran out before the loop finished. -/
def sliceLoopFuel (mc : Nat) (para : List Char) :
    Nat → Nat → List (List Char) × List Char →
      Option (List (List Char) × List Char)
  | 0, start, st => if start < para.length then none else some st
  | fuel + 1, start, st =>
    if start < para.length then
      let en := min (start + mc) para.length
      sliceLoopFuel mc para fuel en
        (sliceStep mc st ((para.drop start).take (en - start)))
    else some st

/-! ### The translation loop (source lines 266-295)

The per-chunk transform (`translate_text`) is treated as an injected
capability `f : List Char → Option (List Char)`; `none` models Python's
`None` (returned by `translate_text` for an empty chunk, line 148). -/

/-- The error-marker prefix produced by `translate_text` on an API failure
(source line 180) and scanned for by the loop (line 283). -/
def errMarker : List Char := "[[翻譯錯誤:".data

/-- The detail used when the transform returned `None` or an empty string
(the `or '未知錯誤'` on source line 287). -/
def unknownErr : List Char := "未知錯誤".data

/-- Python's substring test `pat in l`. -/
def containsSub (pat : List Char) : List Char → Bool
  | [] => decide (pat = [])
  | c :: rest => pat.isPrefixOf (c :: rest) || containsSub pat rest

/-- The success test of source line 283:
`if translated_chunk and "[[翻譯錯誤:" not in translated_chunk`. -/
def translateOk (r : Option (List Char)) : Bool :=
  match r with
  | none => false
  | some v => !v.isEmpty && !containsSub errMarker v

/-- `translated_chunk or '未知錯誤'` (source line 287). -/
def orUnknown (r : Option (List Char)) : List Char :=
  match r with
  | none => unknownErr
  | some v => if v.isEmpty then unknownErr else v

/-- The failure marker recorded for chunk number `n` (1-based), source
line 287. -/
def failText (n : Nat) (r : Option (List Char)) : List Char :=
  "\n--- 塊 ".data ++ (Nat.repr n).data ++ " 翻譯失敗 ---\n".data
    ++ orUnknown r ++ "\n---".data

/-- The `for i, chunk in enumerate(text_chunks)` loop of source lines
273-295, carrying the accumulated `translated_chunks` list and the
`errors_occurred` flag. -/
def translateLoop (f : List Char → Option (List Char)) :
    List (List Char) → Nat → List (List Char) → Bool →
      List (List Char) × Bool
  | [], _, acc, err => (acc, err)
  | c :: cs, i, acc, err =>
    if translateOk (f c) then
      translateLoop f cs (i + 1) (acc ++ [(f c).getD []]) err
    else
      translateLoop f cs (i + 1) (acc ++ [failText (i + 1) (f c)]) true

/-- The whole processing pass over the chunk list. -/
def processChunks (f : List Char → Option (List Char))
    (chunks : List (List Char)) : List (List Char) × Bool :=
  translateLoop f chunks 0 [] false

/-! ### Sanity checks of the embedding against the source's behaviour -/

example : split_text_into_chunks ['a'] 1 = [[], ['a']] := by decide
example : split_text_into_chunks ['a', 'b'] 3 = [[], ['a', 'b']] := by decide
example : split_text_into_chunks ['a', 'b', 'c'] 2 = [['a', 'b'], ['c']] := by
  decide
example :
    split_text_into_chunks ['a', 'b', '\n', '\n', 'c', 'd'] 2 =
      [[], ['a', 'b'], ['c', 'd']] := by decide
example : split_text_into_chunks [] 0 = [[]] := by decide
example : split_text_into_chunks [] 1 = [[]] := by decide
example : split_text_into_chunks [] 2 = [] := by decide
example : split_text_into_chunks [' '] 2500 = [[' ']] := by decide
example : splitSep ['a', '\n', '\n', '\n', 'b'] = [['a'], ['\n', 'b']] := by
  decide
example : stripSeps ['a', '\n', '\n', '\n', 'b'] = ['a', '\n', 'b'] := by
  decide

/-! ### Lemmas about the forced slicing -/

theorem sliceGo_congr {mc : Nat} (hmc : 1 ≤ mc) :
    ∀ f₁ f₂ l, l.length ≤ f₁ → l.length ≤ f₂ →
      sliceGo mc f₁ l = sliceGo mc f₂ l := by
  intro f₁
  induction f₁ with
  | zero =>
    intro f₂ l h1 _
    have hl : l = [] := List.eq_nil_of_length_eq_zero (Nat.le_zero.mp h1)
    subst hl
    cases f₂ <;> rfl
  | succ f ih =>
    intro f₂ l h1 h2
    cases l with
    | nil => cases f₂ <;> rfl
    | cons c cs =>
      cases f₂ with
      | zero => simp at h2
      | succ f' =>
        simp only [sliceGo]
        congr 1
        apply ih
        · simp only [List.length_drop, List.length_cons] at *
          omega
        · simp only [List.length_drop, List.length_cons] at *
          omega

theorem forcedSlices_nil (mc : Nat) : forcedSlices mc [] = [] := rfl

theorem forcedSlices_cons {mc : Nat} (hmc : 1 ≤ mc) {l : List Char}
    (hl : l ≠ []) :
    forcedSlices mc l = l.take mc :: forcedSlices mc (l.drop mc) := by
  obtain ⟨c, cs, rfl⟩ := List.exists_cons_of_ne_nil hl
  show sliceGo mc (c :: cs).length (c :: cs) = _
  simp only [List.length_cons, sliceGo]
  congr 1
  apply sliceGo_congr hmc
  · simp only [List.length_drop, List.length_cons]
    omega
  · exact le_rfl

theorem forcedSlices_flatten {mc : Nat} (hmc : 1 ≤ mc) (l : List Char) :
    (forcedSlices mc l).flatten = l := by
  have main : ∀ (n : Nat) (l : List Char), l.length ≤ n →
      (forcedSlices mc l).flatten = l := by
    intro n
    induction n with
    | zero =>
      intro l h
      have hl : l = [] := List.eq_nil_of_length_eq_zero (Nat.le_zero.mp h)
      subst hl
      rfl
    | succ n ih =>
      intro l h
      by_cases hl : l = []
      · subst hl
        rfl
      · rw [forcedSlices_cons hmc hl]
        simp only [List.flatten_cons]
        rw [ih (l.drop mc)
            (by
              have := List.length_pos.mpr hl
              simp only [List.length_drop]
              omega)]
        exact List.take_append_drop mc l
  exact main l.length l le_rfl

theorem forcedSlices_mem {mc : Nat} (hmc : 1 ≤ mc) (l : List Char) :
    ∀ s ∈ forcedSlices mc l, s ≠ [] ∧ s.length ≤ mc := by
  have main : ∀ (n : Nat) (l : List Char), l.length ≤ n →
      ∀ s ∈ forcedSlices mc l, s ≠ [] ∧ s.length ≤ mc := by
    intro n
    induction n with
    | zero =>
      intro l h
      have hl : l = [] := List.eq_nil_of_length_eq_zero (Nat.le_zero.mp h)
      subst hl
      intro s hs
      simp [forcedSlices_nil] at hs
    | succ n ih =>
      intro l h
      by_cases hl : l = []
      · subst hl
        intro s hs
        simp [forcedSlices_nil] at hs
      · rw [forcedSlices_cons hmc hl]
        intro s hs
        rcases List.mem_cons.mp hs with hs | hs
        · subst hs
          constructor
          · simp only [ne_eq, List.take_eq_nil_iff, not_or]
            exact ⟨by omega, hl⟩
          · simp only [List.length_take]
            exact min_le_left _ _
        · exact ih (l.drop mc)
            (by
              have := List.length_pos.mpr hl
              simp only [List.length_drop]
              omega) s hs
  exact main l.length l le_rfl

theorem forcedSlices_length {mc : Nat} (hmc : 1 ≤ mc) (l : List Char)
    (hl : l ≠ []) :
    (forcedSlices mc l).length = (l.length + mc - 1) / mc := by
  have main : ∀ (n : Nat) (l : List Char), l.length ≤ n → l ≠ [] →
      (forcedSlices mc l).length = (l.length + mc - 1) / mc := by
    intro n
    induction n with
    | zero =>
      intro l h hl
      exact absurd (List.eq_nil_of_length_eq_zero (Nat.le_zero.mp h)) hl
    | succ n ih =>
      intro l h hl
      have hpos := List.length_pos.mpr hl
      rw [forcedSlices_cons hmc hl]
      by_cases hbig : l.length ≤ mc
      · have hdrop : l.drop mc = [] := List.drop_eq_nil_of_le hbig
        rw [hdrop, forcedSlices_nil]
        simp only [List.length_cons, List.length_nil]
        symm
        exact Nat.div_eq_of_lt_le (by omega) (by omega)
      · have hdropne : l.drop mc ≠ [] := by
          intro hd
          have := congrArg List.length hd
          simp only [List.length_drop, List.length_nil] at this
          omega
        simp only [List.length_cons]
        rw [ih (l.drop mc) (by simp only [List.length_drop]; omega) hdropne]
        simp only [List.length_drop]
        have h1 : l.length - mc + mc - 1 = l.length - 1 := by omega
        have h2 : l.length + mc - 1 = l.length - 1 + mc := by omega
        rw [h1, h2, Nat.add_div_right _ (by omega)]

  exact main l.length l le_rfl hl

/-- C6: for every paragraph of length `L > max_chars` (with `max_chars ≥ 1`),
the forced-splitting step produces exactly `⌈L / max_chars⌉` consecutive
slices, each non-empty and of length at most `max_chars`, and their
concatenation in order equals the paragraph exactly (left-to-right, no
overlap, no gap). -/
theorem c6_forced_slices {mc : Nat} {p : List Char} (hmc : 1 ≤ mc)
    (hp : mc < p.length) :
    (forcedSlices mc p).length = (p.length + mc - 1) / mc ∧
      (∀ s ∈ forcedSlices mc p, s ≠ [] ∧ s.length ≤ mc) ∧
      (forcedSlices mc p).flatten = p := by
  refine ⟨?_, forcedSlices_mem hmc p, forcedSlices_flatten hmc p⟩
  apply forcedSlices_length hmc
  intro h
  subst h
  simp at hp

theorem c6_witness :
    (forcedSlices 2 ['a', 'b', 'c', 'd', 'e']).length =
        (['a', 'b', 'c', 'd', 'e'].length + 2 - 1) / 2 ∧
      (∀ s ∈ forcedSlices 2 ['a', 'b', 'c', 'd', 'e'],
        s ≠ [] ∧ s.length ≤ 2) ∧
      (forcedSlices 2 ['a', 'b', 'c', 'd', 'e']).flatten =
        ['a', 'b', 'c', 'd', 'e'] :=
  c6_forced_slices (by decide) (by decide)

/-! ### Termination of the forced-splitting while-loop -/

theorem drop_min_length (l : List Char) (n : Nat) :
    l.drop (min n l.length) = l.drop n := by
  rcases le_total n l.length with h | h
  · rw [min_eq_left h]
  · rw [min_eq_right h, List.drop_length, List.drop_eq_nil_of_le h]

theorem sliceLoopFuel_eq {mc : Nat} (hmc : 1 ≤ mc) (para : List Char) :
    ∀ fuel start st, para.length ≤ start + fuel →
      sliceLoopFuel mc para fuel start st =
        some ((forcedSlices mc (para.drop start)).foldl (sliceStep mc) st) := by
  intro fuel
  induction fuel with
  | zero =>
    intro start st h
    have hge : ¬ start < para.length := by omega
    have hdrop : para.drop start = [] :=
      List.drop_eq_nil_of_le (by omega)
    simp [sliceLoopFuel, hge, hdrop, forcedSlices_nil]
  | succ f ih =>
    intro start st h
    by_cases hs : start < para.length
    · have hne : para.drop start ≠ [] := by
        intro hd
        have := congrArg List.length hd
        simp only [List.length_drop, List.length_nil] at this
        omega
      have hslice : (para.drop start).take (min (start + mc) para.length - start)
          = (para.drop start).take mc := by
        apply List.take_eq_take.mpr
        simp only [List.length_drop]
        omega
      have hrest : para.drop (min (start + mc) para.length) =
          (para.drop start).drop mc := by
        rw [drop_min_length para (start + mc), List.drop_drop]
      simp only [sliceLoopFuel, if_pos hs]
      rw [hslice, ih (min (start + mc) para.length) _ (by omega), hrest]
      rw [forcedSlices_cons hmc hne]
      simp only [List.foldl_cons]
    · have hdrop : para.drop start = [] :=
        List.drop_eq_nil_of_le (by omega)
      simp [sliceLoopFuel, hs, hdrop, forcedSlices_nil]

/-- C9: with `max_chars ≥ 1` the forced-splitting while-loop terminates —
it advances its start index strictly each iteration, so `len(paragraph)`
iterations of fuel always suffice, and it computes exactly the slice fold
that `split_text_into_chunks` performs; the function is therefore total
under the precondition `max_chars ≥ 1`. -/
theorem c9_termination {mc : Nat} (hmc : 1 ≤ mc) (para : List Char)
    (st : List (List Char) × List Char) :
    sliceLoopFuel mc para para.length 0 st =
        some ((forcedSlices mc para).foldl (sliceStep mc) st) ∧
      ∀ start, start < para.length → start < min (start + mc) para.length := by
  constructor
  · have := sliceLoopFuel_eq hmc para para.length 0 st (by omega)
    simpa using this
  · intro start hstart
    omega

theorem c9_witness :
    sliceLoopFuel 2 ['a', 'b', 'c'] ['a', 'b', 'c'].length 0 ([], []) =
        some ((forcedSlices 2 ['a', 'b', 'c']).foldl (sliceStep 2) ([], [])) ∧
      ∀ start, start < ['a', 'b', 'c'].length →
        start < min (start + 2) ['a', 'b', 'c'].length :=
  c9_termination (by decide) ['a', 'b', 'c'] ([], [])

/-! ### C3: the size bound -/

/-- The invariant behind the size bound: every finished chunk and the
accumulator are within the budget. -/
def BoundedState (mc : Nat) (st : List (List Char) × List Char) : Prop :=
  (∀ c ∈ st.1, c.length ≤ mc) ∧ st.2.length ≤ mc

theorem finishChunks_mem_bound {mc : Nat} {st : List (List Char) × List Char}
    (h : BoundedState mc st) : ∀ c ∈ finishChunks st, c.length ≤ mc := by
  intro c hc
  unfold finishChunks at hc
  by_cases h2 : st.2 = []
  · rw [if_pos h2] at hc
    exact h.1 c hc
  · rw [if_neg h2] at hc
    rcases List.mem_append.mp hc with hc | hc
    · exact h.1 c hc
    · simp only [List.mem_singleton] at hc
      subst hc
      exact h.2

theorem sliceStep_bounded {mc : Nat} {st : List (List Char) × List Char}
    {s : List Char} (hst : BoundedState mc st) (hs : s.length ≤ mc) :
    BoundedState mc (sliceStep mc st s) := by
  unfold sliceStep
  by_cases hcond : st.2.length + s.length + 2 ≤ mc
  · rw [if_pos hcond]
    refine ⟨hst.1, ?_⟩
    unfold chunkJoin
    by_cases hc : st.2 = []
    · rw [if_pos hc]
      exact hs
    · rw [if_neg hc]
      simp only [List.length_append, sep, List.length_cons, List.length_nil]
      omega
  · rw [if_neg hcond]
    by_cases hms : mc ≤ s.length
    · rw [if_pos hms]
      refine ⟨?_, by simp⟩
      intro c hc
      rcases List.mem_append.mp hc with hc | hc
      · exact finishChunks_mem_bound hst c hc
      · simp only [List.mem_singleton] at hc
        subst hc
        exact hs
    · rw [if_neg hms]
      exact ⟨finishChunks_mem_bound hst, hs⟩

theorem foldl_sliceStep_bounded {mc : Nat} :
    ∀ (ss : List (List Char)) (st : List (List Char) × List Char),
      BoundedState mc st → (∀ s ∈ ss, s.length ≤ mc) →
        BoundedState mc (ss.foldl (sliceStep mc) st) := by
  intro ss
  induction ss with
  | nil => intro st h _; exact h
  | cons s rest ih =>
    intro st h hs
    simp only [List.foldl_cons]
    exact ih _ (sliceStep_bounded h (hs s (List.mem_cons_self s rest)))
      (fun x hx => hs x (List.mem_cons_of_mem s hx))

theorem paraStep_bounded {mc : Nat} {st : List (List Char) × List Char}
    {p : List Char} (hmc : 1 ≤ mc) (hst : BoundedState mc st) :
    BoundedState mc (paraStep mc st p) := by
  unfold paraStep
  by_cases hbig : mc < p.length
  · rw [if_pos hbig]
    exact foldl_sliceStep_bounded _ _ hst
      (fun s hs => (forcedSlices_mem hmc p s hs).2)
  · rw [if_neg hbig]
    by_cases hcond : st.2.length + p.length + 2 ≤ mc
    · rw [if_pos hcond]
      refine ⟨hst.1, ?_⟩
      show (chunkJoin st.2 p).length ≤ mc
      unfold chunkJoin
      by_cases hc : st.2 = []
      · rw [if_pos hc]
        exact not_lt.mp hbig
      · rw [if_neg hc]
        simp only [List.length_append, sep, List.length_cons, List.length_nil]
        omega
    · rw [if_neg hcond]
      refine ⟨?_, not_lt.mp hbig⟩
      intro c hc
      rcases List.mem_append.mp hc with hc | hc
      · exact hst.1 c hc
      · simp only [List.mem_singleton] at hc
        subst hc
        exact hst.2

theorem foldl_paraStep_bounded {mc : Nat} (hmc : 1 ≤ mc) :
    ∀ (ps : List (List Char)) (st : List (List Char) × List Char),
      BoundedState mc st → BoundedState mc (ps.foldl (paraStep mc) st) := by
  intro ps
  induction ps with
  | nil => intro st h; exact h
  | cons p rest ih =>
    intro st h
    simp only [List.foldl_cons]
    exact ih _ (paraStep_bounded hmc h)

/-- C3: for every input text and every `max_chars ≥ 1`, every chunk
returned by `split_text_into_chunks` has length at most `max_chars`. -/
theorem c3_size_bound {text : List Char} {mc : Nat} (hmc : 1 ≤ mc) :
    ∀ c ∈ split_text_into_chunks text mc, c.length ≤ mc :=
  finishChunks_mem_bound
    (foldl_paraStep_bounded hmc (splitSep text) ([], []) ⟨by simp, by simp⟩)

theorem c3_witness : List.length ['a', 'b'] ≤ 2 :=
  @c3_size_bound ['a', 'b', 'c'] 2 (by decide) ['a', 'b'] (by decide)

/-! ### C1: non-emptiness of chunks -/

/-- C1 counterexample: `split("ab", 3)` emits the empty string as its first
chunk — the flush on source line 132 appends `current_chunk` without a
non-emptiness check, and `current_chunk` is still empty when a paragraph of
length `max_chars - 1` or `max_chars` arrives. -/
theorem c1_counterexample :
    1 ≤ 3 ∧ [] ∈ split_text_into_chunks ['a', 'b'] 3 := by decide

theorem sliceStep_noempty {mc : Nat} {st : List (List Char) × List Char}
    {s : List Char} (h : [] ∉ st.1) (hs : s ≠ []) :
    [] ∉ (sliceStep mc st s).1 := by
  have hfin : [] ∉ finishChunks st := by
    unfold finishChunks
    by_cases h2 : st.2 = []
    · rw [if_pos h2]
      exact h
    · rw [if_neg h2]
      intro hmem
      rcases List.mem_append.mp hmem with hc | hc
      · exact h hc
      · simp only [List.mem_singleton] at hc
        exact h2 hc.symm
  unfold sliceStep
  by_cases hcond : st.2.length + s.length + 2 ≤ mc
  · rw [if_pos hcond]
    exact h
  · rw [if_neg hcond]
    by_cases hms : mc ≤ s.length
    · rw [if_pos hms]
      intro hmem
      rcases List.mem_append.mp hmem with hc | hc
      · exact hfin hc
      · simp only [List.mem_singleton] at hc
        exact hs hc.symm
    · rw [if_neg hms]
      exact hfin

theorem foldl_sliceStep_noempty {mc : Nat} :
    ∀ (ss : List (List Char)) (st : List (List Char) × List Char),
      [] ∉ st.1 → (∀ s ∈ ss, s ≠ []) →
        [] ∉ (ss.foldl (sliceStep mc) st).1 := by
  intro ss
  induction ss with
  | nil => intro st h _; exact h
  | cons s rest ih =>
    intro st h hs
    simp only [List.foldl_cons]
    exact ih _ (sliceStep_noempty h (hs s (List.mem_cons_self s rest)))
      (fun x hx => hs x (List.mem_cons_of_mem s hx))

theorem paraStep_noempty {mc : Nat} {st : List (List Char) × List Char}
    {p : List Char} (hmc : 1 ≤ mc) (h : [] ∉ st.1)
    (hp : p.length + 2 ≤ mc ∨ mc < p.length) :
    [] ∉ (paraStep mc st p).1 := by
  unfold paraStep
  by_cases hbig : mc < p.length
  · rw [if_pos hbig]
    exact foldl_sliceStep_noempty _ _ h
      (fun s hs => (forcedSlices_mem hmc p s hs).1)
  · rw [if_neg hbig]
    by_cases hcond : st.2.length + p.length + 2 ≤ mc
    · rw [if_pos hcond]
      exact h
    · rw [if_neg hcond]
      have hple : p.length + 2 ≤ mc := by
        rcases hp with hp | hp
        · exact hp
        · exact absurd hp hbig
      intro hmem
      rcases List.mem_append.mp hmem with hc | hc
      · exact h hc
      · simp only [List.mem_singleton] at hc
        rw [← hc] at hcond
        simp only [List.length_nil] at hcond
        omega

/-- C1 amended: no produced chunk is the empty string **provided** every
paragraph either fits together with a separator (`len(p) + 2 ≤ max_chars`)
or is oversized (`len(p) > max_chars`).  In general the flush on source
line 132 emits an empty chunk exactly when a paragraph of length
`max_chars - 1` or `max_chars` arrives while the accumulator is empty
(see `c1_counterexample`). -/
theorem c1_amended_nonempty {text : List Char} {mc : Nat} (hmc : 1 ≤ mc)
    (hpara : ∀ p ∈ splitSep text, p.length + 2 ≤ mc ∨ mc < p.length) :
    [] ∉ split_text_into_chunks text mc := by
  have main : ∀ (ps : List (List Char)) (st : List (List Char) × List Char),
      (∀ p ∈ ps, p.length + 2 ≤ mc ∨ mc < p.length) → [] ∉ st.1 →
        [] ∉ finishChunks (ps.foldl (paraStep mc) st) := by
    intro ps
    induction ps with
    | nil =>
      intro st _ h
      simp only [List.foldl_nil]
      unfold finishChunks
      by_cases h2 : st.2 = []
      · rw [if_pos h2]
        exact h
      · rw [if_neg h2]
        intro hmem
        rcases List.mem_append.mp hmem with hc | hc
        · exact h hc
        · simp only [List.mem_singleton] at hc
          exact h2 hc.symm
    | cons p rest ih =>
      intro st hps h
      simp only [List.foldl_cons]
      exact ih _ (fun x hx => hps x (List.mem_cons_of_mem p hx))
        (paraStep_noempty hmc h (hps p (List.mem_cons_self p rest)))
  exact main (splitSep text) ([], []) hpara (by simp)

theorem c1_amended_witness : [] ∉ split_text_into_chunks ['a', 'b'] 5 :=
  c1_amended_nonempty (by decide) (by decide)

/-! ### C4: empty and whitespace-only input -/

/-- C4 counterexample: the whitespace-only text `" "` yields one chunk
(`[" "]`), not the empty sequence, even at the application's
`max_chars = 2500`.  (In the application this input is unreachable: the
caller strips the extracted text and only chunks when it is non-blank.) -/
theorem c4_counterexample :
    split_text_into_chunks [' '] 2500 = [[' ']] := by decide

/-- C4 amended: for `max_chars ≥ 2` the **empty** text produces the empty
chunk sequence.  Whitespace-only but non-empty text produces chunks
containing that whitespace (see `c4_counterexample`), and for
`max_chars = 1` even the empty text produces the single chunk `[""]`. -/
theorem c4_amended_empty {mc : Nat} (hmc : 2 ≤ mc) :
    split_text_into_chunks [] mc = [] := by
  show finishChunks ((splitSep []).foldl (paraStep mc) ([], [])) = []
  have h1 : (splitSep []).foldl (paraStep mc) ([], []) =
      paraStep mc ([], []) [] := rfl
  rw [h1]
  unfold paraStep
  rw [if_neg (by simp), if_pos (by simpa using hmc)]
  simp [chunkJoin, finishChunks]

theorem c4_amended_witness : split_text_into_chunks [] 2500 = [] :=
  c4_amended_empty (by decide)

/-! ### C5: no configuration validation exists -/

/-- C5 counterexample: nothing rejects a non-positive `max_chars` —
`split_text_into_chunks` runs to completion with `max_chars = 0` (here on
the empty text, where the source raises no error and returns `[""]`);
the source contains no `ConfigurationError` or any validation of
`max_chars_per_chunk`. -/
theorem c5_counterexample : split_text_into_chunks [] 0 = [[]] := by decide

/-- C5 amended: the code performs no validation of `max_chars_per_chunk`;
instead, the only call site (source line 258) always passes the constant
`MAX_CHARS_PER_CHUNK = 2500`, which satisfies `max_chars ≥ 1`, so in the
application the chunker never actually runs with a non-positive bound. -/
theorem c5_amended :
    1 ≤ MAX_CHARS_PER_CHUNK ∧
      ∀ t, appSplit t = split_text_into_chunks t MAX_CHARS_PER_CHUNK :=
  ⟨by decide, fun _ => rfl⟩

/-! ### C8: a paragraph of length exactly `max_chars` -/

theorem finishChunks_chunks_mono {st : List (List Char) × List Char}
    {c : List Char} (h : c ∈ st.1) : c ∈ finishChunks st := by
  unfold finishChunks
  by_cases h2 : st.2 = []
  · rw [if_pos h2]
    exact h
  · rw [if_neg h2]
    exact List.mem_append_left _ h

theorem sliceStep_chunks_mono {mc : Nat} {st : List (List Char) × List Char}
    {s c : List Char} (h : c ∈ st.1) : c ∈ (sliceStep mc st s).1 := by
  unfold sliceStep
  by_cases hcond : st.2.length + s.length + 2 ≤ mc
  · rw [if_pos hcond]
    exact h
  · rw [if_neg hcond]
    by_cases hms : mc ≤ s.length
    · rw [if_pos hms]
      exact List.mem_append_left _ (finishChunks_chunks_mono h)
    · rw [if_neg hms]
      exact finishChunks_chunks_mono h

theorem foldl_sliceStep_chunks_mono {mc : Nat} {c : List Char} :
    ∀ (ss : List (List Char)) (st : List (List Char) × List Char),
      c ∈ st.1 → c ∈ (ss.foldl (sliceStep mc) st).1 := by
  intro ss
  induction ss with
  | nil => intro st h; exact h
  | cons s rest ih =>
    intro st h
    simp only [List.foldl_cons]
    exact ih _ (sliceStep_chunks_mono h)

theorem paraStep_chunks_mono {mc : Nat} {st : List (List Char) × List Char}
    {p c : List Char} (h : c ∈ st.1) : c ∈ (paraStep mc st p).1 := by
  unfold paraStep
  by_cases hbig : mc < p.length
  · rw [if_pos hbig]
    exact foldl_sliceStep_chunks_mono _ _ h
  · rw [if_neg hbig]
    by_cases hcond : st.2.length + p.length + 2 ≤ mc
    · rw [if_pos hcond]
      exact h
    · rw [if_neg hcond]
      exact List.mem_append_left _ h

theorem mem_split_of_mem_chunks {mc : Nat} {c : List Char} :
    ∀ (ps : List (List Char)) (st : List (List Char) × List Char),
      c ∈ st.1 → c ∈ finishChunks (ps.foldl (paraStep mc) st) := by
  intro ps
  induction ps with
  | nil =>
    intro st h
    simp only [List.foldl_nil]
    exact finishChunks_chunks_mono h
  | cons p rest ih =>
    intro st h
    simp only [List.foldl_cons]
    exact ih _ (paraStep_chunks_mono h)

theorem cur_full_mem {mc : Nat} (hmc : 1 ≤ mc) :
    ∀ (ps : List (List Char)) (st : List (List Char) × List Char),
      st.2.length = mc → st.2 ∈ finishChunks (ps.foldl (paraStep mc) st) := by
  intro ps
  cases ps with
  | nil =>
    intro st hlen
    simp only [List.foldl_nil]
    unfold finishChunks
    rw [if_neg (by intro h; rw [h] at hlen; simp at hlen; omega)]
    exact List.mem_append_right _ (List.mem_singleton_self _)
  | cons p rest =>
    intro st hlen
    simp only [List.foldl_cons]
    apply mem_split_of_mem_chunks
    have hcur : st.2 ∈ finishChunks st := by
      unfold finishChunks
      rw [if_neg (by intro h; rw [h] at hlen; simp at hlen; omega)]
      exact List.mem_append_right _ (List.mem_singleton_self _)
    unfold paraStep
    by_cases hbig : mc < p.length
    · rw [if_pos hbig]
      have hpne : p ≠ [] := by
        intro h
        rw [h] at hbig
        exact absurd hbig (by simp)
      rw [forcedSlices_cons hmc hpne]
      simp only [List.foldl_cons]
      apply foldl_sliceStep_chunks_mono
      unfold sliceStep
      rw [if_neg (by omega)]
      by_cases hms : mc ≤ (p.take mc).length
      · rw [if_pos hms]
        exact List.mem_append_left _ hcur
      · rw [if_neg hms]
        exact hcur
    · rw [if_neg hbig, if_neg (by omega)]
      exact List.mem_append_right _ (List.mem_singleton_self _)

theorem para_exact_mem {mc : Nat} (hmc : 1 ≤ mc) {p : List Char}
    (hlen : p.length = mc) :
    ∀ (ps : List (List Char)) (st : List (List Char) × List Char),
      p ∈ ps → p ∈ finishChunks (ps.foldl (paraStep mc) st) := by
  intro ps
  induction ps with
  | nil => intro st h; simp at h
  | cons q rest ih =>
    intro st hmem
    rcases List.mem_cons.mp hmem with hq | hmem
    · subst hq
      simp only [List.foldl_cons]
      have hstep : paraStep mc st p = (st.1 ++ [st.2], p) := by
        unfold paraStep
        rw [if_neg (by omega), if_neg (by omega)]
      rw [hstep]
      exact cur_full_mem hmc rest (st.1 ++ [st.2], p) hlen
    · simp only [List.foldl_cons]
      exact ih _ hmem

/-- C8: a paragraph whose length is exactly `max_chars` is never
force-split — it goes through the fits branch (whose guard is a strict
`>`), can never be merged with the accumulator (even an empty accumulator
fails the `+ 2` budget test), and is therefore emitted whole as its own
chunk. -/
theorem c8_exact_fit {text p : List Char} {mc : Nat} (hmc : 1 ≤ mc)
    (hp : p ∈ splitSep text) (hlen : p.length = mc) :
    p ∈ split_text_into_chunks text mc :=
  para_exact_mem hmc hlen (splitSep text) ([], []) hp

theorem c8_witness :
    ['a', 'b'] ∈ split_text_into_chunks ['a', 'b', '\n', '\n', 'c', 'd'] 2 :=
  c8_exact_fit (by decide) (by decide) (by decide)

/-! ### C7 and C10: the per-chunk processing loop -/

/-- The value the loop records for one chunk `c` at 1-based position `n`:
the transform's output on success, the failure marker otherwise. -/
def loopResult (f : List Char → Option (List Char)) (n : Nat)
    (c : List Char) : List Char :=
  if translateOk (f c) then (f c).getD [] else failText n (f c)

/-- The results of the loop starting at 0-based position `i`, written as a
pure index-respecting map. -/
def resultsFrom (f : List Char → Option (List Char)) :
    Nat → List (List Char) → List (List Char)
  | _, [] => []
  | i, c :: cs => loopResult f (i + 1) c :: resultsFrom f (i + 1) cs

theorem translateLoop_fst :
    ∀ (f : List Char → Option (List Char)) (cs : List (List Char)) (i : Nat)
      (acc : List (List Char)) (err : Bool),
      (translateLoop f cs i acc err).1 = acc ++ resultsFrom f i cs := by
  intro f cs
  induction cs with
  | nil => intro i acc err; simp [translateLoop, resultsFrom]
  | cons c rest ih =>
    intro i acc err
    by_cases hok : translateOk (f c)
    · simp only [translateLoop, if_pos hok, ih, resultsFrom, loopResult,
        List.append_assoc, List.singleton_append]
    · simp only [translateLoop, if_neg hok, ih, resultsFrom, loopResult,
        List.append_assoc, List.singleton_append]

theorem resultsFrom_length (f : List Char → Option (List Char)) :
    ∀ (cs : List (List Char)) (i : Nat), (resultsFrom f i cs).length = cs.length := by
  intro cs
  induction cs with
  | nil => intro i; rfl
  | cons c rest ih =>
    intro i
    simp only [resultsFrom, List.length_cons, ih]

theorem resultsFrom_get? (f : List Char → Option (List Char)) :
    ∀ (cs : List (List Char)) (i j : Nat),
      (resultsFrom f i cs).get? j = (cs.get? j).map (loopResult f (i + j + 1)) := by
  intro cs
  induction cs with
  | nil => intro i j; simp [resultsFrom]
  | cons c rest ih =>
    intro i j
    cases j with
    | zero => simp [resultsFrom]
    | succ j =>
      simp only [resultsFrom, List.get?_cons_succ, ih]
      have harith : i + 1 + j + 1 = i + (j + 1) + 1 := by omega
      rw [harith]

theorem processChunks_get? (f : List Char → Option (List Char))
    (chunks : List (List Char)) (i : Nat) :
    (processChunks f chunks).1.get? i =
      (chunks.get? i).map (loopResult f (i + 1)) := by
  unfold processChunks
  rw [translateLoop_fst]
  simp only [List.nil_append]
  have := resultsFrom_get? f chunks 0 i
  simpa using this

/-- C7: the loop produces exactly one result per input chunk, in chunk
order; at every failed position the result is the failure marker carrying
the 1-based chunk index and the failure detail, and the result at any
position depends only on that position's chunk — a failure at chunk `i`
neither aborts the run nor affects the processing or ordering of later
chunks. -/
theorem c7_process_order (f : List Char → Option (List Char))
    (chunks : List (List Char)) :
    (processChunks f chunks).1.length = chunks.length ∧
      ∀ i c, chunks.get? i = some c →
        (processChunks f chunks).1.get? i =
          some (if translateOk (f c) then (f c).getD []
                else failText (i + 1) (f c)) := by
  constructor
  · unfold processChunks
    rw [translateLoop_fst]
    simp [resultsFrom_length]
  · intro i c hc
    rw [processChunks_get?, hc]
    rfl

/-- A concrete transform used only to witness the loop theorems: it fails
(returns `none`, as `translate_text` does on an empty chunk) on the chunk
`"y"` and succeeds, echoing its input, on everything else. -/
def demoTransform (c : List Char) : Option (List Char) :=
  if c = ['y'] then none else some c

theorem c7_witness :
    (processChunks demoTransform [['x'], ['y']]).1.get? 1 =
      some (if translateOk (demoTransform ['y'])
            then (demoTransform ['y']).getD []
            else failText (1 + 1) (demoTransform ['y'])) :=
  (c7_process_order demoTransform [['x'], ['y']]).2 1 ['y'] (by decide)

/-- C10: the loop records a failure marker exactly when the transform's
value is `None`, the empty string, or contains the substring
`"[[翻譯錯誤:"`; a genuine success whose text happens to contain that
substring is still recorded as a failure marker, and a `None` (or empty)
result is recorded with the detail `"未知錯誤"`. -/
theorem c10_failure_classification (f : List Char → Option (List Char))
    (chunks : List (List Char)) (i : Nat) (c : List Char)
    (hc : chunks.get? i = some c) :
    (f c = none →
        (processChunks f chunks).1.get? i = some (failText (i + 1) none) ∧
          orUnknown none = unknownErr) ∧
      (f c = some [] →
        (processChunks f chunks).1.get? i =
            some (failText (i + 1) (some [])) ∧
          orUnknown (some []) = unknownErr) ∧
      (∀ v, f c = some v → containsSub errMarker v = true →
        (processChunks f chunks).1.get? i = some (failText (i + 1) (some v))) ∧
      (∀ v, f c = some v → v ≠ [] → containsSub errMarker v = false →
        (processChunks f chunks).1.get? i = some v) := by
  have hget := processChunks_get? f chunks i
  rw [hc] at hget
  refine ⟨?_, ?_, ?_, ?_⟩
  · intro hnone
    refine ⟨?_, rfl⟩
    rw [hget]
    simp [loopResult, translateOk, hnone]
  · intro hempty
    refine ⟨?_, rfl⟩
    rw [hget]
    simp [loopResult, translateOk, hempty]
  · intro v hv hmarker
    rw [hget]
    simp [loopResult, translateOk, hv, hmarker]
  · intro v hv hne hmarker
    rw [hget]
    simp [loopResult, translateOk, hv, hmarker, hne]

theorem c10_witness :
    (processChunks demoTransform [['x'], ['y']]).1.get? 1 =
        some (failText (1 + 1) none) ∧
      orUnknown none = unknownErr :=
  (c10_failure_classification demoTransform [['x'], ['y']] 1 ['y']
    (by decide)).1 rfl

/-! ### C2: the lossless round trip

Plan: every chunk is an intercalation (by `"\n\n"`) of *pieces* — whole
paragraphs and forced slices, plus the occasional empty string emitted by
the unguarded flush.  Re-joining the chunks with `"\n\n"` therefore yields
the intercalation of one flat piece sequence.  For piece sequences that are
separator-free and never put a piece ending in `'\n'` directly before a
piece starting with `'\n'` (`Rel` below), stripping the separators of the
intercalation recovers exactly the concatenation of the pieces. -/

/-- A piece contains no two consecutive newlines (no separator occurrence). -/
def sepFreeQ (l : List Char) : Prop :=
  List.Chain' (fun a b => ¬(a = '\n' ∧ b = '\n')) l

/-- Safe adjacency of pieces: a piece ending in `'\n'` must be followed by a
non-empty piece not starting with `'\n'`, so that the inserted separator
stays recognisable. -/
def Rel (a b : List Char) : Prop :=
  a.getLast? = some '\n' → b ≠ [] ∧ b.head? ≠ some '\n'

theorem icalate_nil : List.intercalate sep ([] : List (List Char)) = [] := by
  simp [List.intercalate]

theorem icalate_single (x : List Char) : List.intercalate sep [x] = x := by
  simp [List.intercalate]

theorem icalate_cons₂ (a b : List Char) (l : List (List Char)) :
    List.intercalate sep (a :: b :: l) = a ++ sep ++ List.intercalate sep (b :: l) := by
  simp [List.intercalate, List.intersperse_cons_cons, List.flatten, List.append_assoc]

theorem icalate_append {A B : List (List Char)} (hA : A ≠ []) (hB : B ≠ []) :
    List.intercalate sep (A ++ B) =
      List.intercalate sep A ++ sep ++ List.intercalate sep B := by
  induction A with
  | nil => exact absurd rfl hA
  | cons a A' ih =>
    cases A' with
    | nil =>
      cases B with
      | nil => exact absurd rfl hB
      | cons b B' =>
        rw [List.singleton_append, icalate_cons₂, icalate_single]
    | cons a' A'' =>
      have hstep : List.intercalate sep ((a :: a' :: A'') ++ B) =
          a ++ sep ++ List.intercalate sep ((a' :: A'') ++ B) := by
        have h1 : (a :: a' :: A'') ++ B = a :: a' :: (A'' ++ B) := rfl
        have h2 : (a' :: A'') ++ B = a' :: (A'' ++ B) := rfl
        rw [h1, icalate_cons₂, h2]
      rw [hstep, ih (by simp), icalate_cons₂]
      simp [List.append_assoc]

theorem icalate_nested {GS : List (List (List Char))} (h : ∀ g ∈ GS, g ≠ []) :
    List.intercalate sep (GS.map (List.intercalate sep)) =
      List.intercalate sep GS.flatten := by
  induction GS with
  | nil => rfl
  | cons g GS' ih =>
    cases GS' with
    | nil =>
      simp only [List.map_cons, List.map_nil, icalate_single,
        List.flatten_cons, List.flatten_nil, List.append_nil]
    | cons g' GS'' =>
      have hg : g ≠ [] := h g (List.mem_cons_self g _)
      have hg' : g' ≠ [] := h g' (by simp)
      have hflat_ne : (g' :: GS'').flatten ≠ [] := by
        simp only [List.flatten_cons]
        intro he
        exact hg' (List.append_eq_nil.mp he).1
      have hsub : ∀ x ∈ g' :: GS'', x ≠ [] :=
        fun x hx => h x (List.mem_cons_of_mem g hx)
      rw [List.map_cons, List.map_cons, icalate_cons₂, ← List.map_cons,
        ih hsub, ← icalate_append hg hflat_ne, ← List.flatten_cons]

theorem append_sep_eq (q t : List Char) :
    q ++ sep ++ t = q ++ '\n' :: '\n' :: t := by
  simp [sep]

theorem stripSeps_cons₂_pos (rest : List Char) :
    stripSeps ('\n' :: '\n' :: rest) = stripSeps rest := by
  simp [stripSeps]

theorem stripSeps_cons₂_neg {c₁ c₂ : Char} (h : ¬(c₁ = '\n' ∧ c₂ = '\n'))
    (rest : List Char) :
    stripSeps (c₁ :: c₂ :: rest) = c₁ :: stripSeps (c₂ :: rest) := by
  simp only [stripSeps, if_neg h]

theorem stripSeps_sepFree : ∀ {a : List Char}, sepFreeQ a → stripSeps a = a := by
  intro a
  induction a with
  | nil => intro; rfl
  | cons c rest ih =>
    intro h
    cases rest with
    | nil => rfl
    | cons c₂ r₂ =>
      have hpair : ¬(c = '\n' ∧ c₂ = '\n') := (List.chain'_cons.mp h).1
      have htail : sepFreeQ (c₂ :: r₂) := (List.chain'_cons.mp h).2
      show stripSeps (c :: c₂ :: r₂) = _
      rw [stripSeps_cons₂_neg hpair, ih htail]

theorem stripSeps_append_sep :
    ∀ {a : List Char}, sepFreeQ a → a.getLast? ≠ some '\n' →
      ∀ t, stripSeps (a ++ '\n' :: '\n' :: t) = a ++ stripSeps t := by
  intro a
  induction a with
  | nil =>
    intro _ _ t
    show stripSeps ('\n' :: '\n' :: t) = stripSeps t
    exact stripSeps_cons₂_pos t
  | cons c rest ih =>
    intro ha hlast t
    cases rest with
    | nil =>
      have hc : c ≠ '\n' := by
        intro hc
        exact hlast (by simp [hc])
      show stripSeps (c :: '\n' :: '\n' :: t) = c :: stripSeps t
      rw [stripSeps_cons₂_neg (by simp [hc]), stripSeps_cons₂_pos]
    | cons c₂ r₂ =>
      have hpair : ¬(c = '\n' ∧ c₂ = '\n') := (List.chain'_cons.mp ha).1
      have htail : sepFreeQ (c₂ :: r₂) := (List.chain'_cons.mp ha).2
      have hlast' : (c₂ :: r₂).getLast? ≠ some '\n' := by
        rwa [List.getLast?_cons_cons] at hlast
      show stripSeps (c :: c₂ :: (r₂ ++ '\n' :: '\n' :: t)) = _
      rw [stripSeps_cons₂_neg hpair]
      have hrw : (c₂ :: (r₂ ++ '\n' :: '\n' :: t)) =
          ((c₂ :: r₂) ++ '\n' :: '\n' :: t) := by simp
      rw [hrw, ih htail hlast' t]
      simp

theorem sepFree_decomp_last_nl {a : List Char} (ha : sepFreeQ a)
    (h : a.getLast? = some '\n') :
    a.dropLast ++ ['\n'] = a ∧ sepFreeQ a.dropLast ∧
      a.dropLast.getLast? ≠ some '\n' := by
  have hne : a ≠ [] := by
    intro h0
    rw [h0] at h
    simp at h
  have hgl : a.getLast hne = '\n' := by
    have := List.getLast?_eq_getLast a hne
    rw [this] at h
    exact Option.some.inj h
  have hdec : a.dropLast ++ ['\n'] = a := by
    rw [← hgl]
    exact List.dropLast_append_getLast hne
  refine ⟨hdec, ?_, ?_⟩
  · exact List.Chain'.prefix ha (List.dropLast_prefix a)
  · intro hlast
    have hchain2 : List.Chain' (fun x y => ¬(x = '\n' ∧ y = '\n'))
        (a.dropLast ++ ['\n']) := by rw [hdec]; exact ha
    have hb := (List.chain'_append.mp hchain2).2.2
    have := hb '\n' hlast '\n' (by simp)
    exact this ⟨rfl, rfl⟩

theorem stripSeps_nl_cons {t : List Char} (hne : t ≠ [])
    (hh : t.head? ≠ some '\n') :
    stripSeps ('\n' :: t) = '\n' :: stripSeps t := by
  cases t with
  | nil => exact absurd rfl hne
  | cons c t' =>
    have hc : c ≠ '\n' := by
      intro hc
      exact hh (by simp [hc])
    show stripSeps ('\n' :: c :: t') = '\n' :: stripSeps (c :: t')
    exact stripSeps_cons₂_neg (by simp [hc]) t'

theorem icalate_head_decomp (q' : List Char) (rest' : List (List Char)) :
    ∃ X, List.intercalate sep (q' :: rest') = q' ++ X := by
  cases rest' with
  | nil => exact ⟨[], by rw [icalate_single, List.append_nil]⟩
  | cons r rest'' =>
    exact ⟨sep ++ List.intercalate sep (r :: rest''),
      by rw [icalate_cons₂]; simp [List.append_assoc]⟩

theorem stripSeps_icalate :
    ∀ {qs : List (List Char)}, (∀ q ∈ qs, sepFreeQ q) →
      List.Chain' Rel qs →
      stripSeps (List.intercalate sep qs) = qs.flatten := by
  intro qs
  induction qs with
  | nil => intro _ _; rfl
  | cons q rest ih =>
    intro hfree hchain
    cases rest with
    | nil =>
      rw [icalate_single, stripSeps_sepFree (hfree q (by simp))]
      simp
    | cons q' rest' =>
      have hq := hfree q (by simp)
      have hfree' : ∀ x ∈ q' :: rest', sepFreeQ x :=
        fun x hx => hfree x (List.mem_cons_of_mem _ hx)
      have hchain' : List.Chain' Rel (q' :: rest') :=
        (List.chain'_cons.mp hchain).2
      have hRel : Rel q q' := (List.chain'_cons.mp hchain).1
      have hih := ih hfree' hchain'
      rw [icalate_cons₂, append_sep_eq]
      by_cases hlast : q.getLast? = some '\n'
      · obtain ⟨hdec, hfree₀, hlast₀⟩ := sepFree_decomp_last_nl hq hlast
        obtain ⟨hq'ne, hq'head⟩ := hRel hlast
        obtain ⟨X, hX⟩ := icalate_head_decomp q' rest'
        have hIne : List.intercalate sep (q' :: rest') ≠ [] := by
          rw [hX]
          intro h0
          exact hq'ne (List.append_eq_nil.mp h0).1
        have hIhead : (List.intercalate sep (q' :: rest')).head? ≠ some '\n' := by
          rw [hX, List.head?_append_of_ne_nil q' hq'ne]
          exact hq'head
        calc stripSeps (q ++ '\n' :: '\n' :: List.intercalate sep (q' :: rest'))
            = stripSeps ((q.dropLast ++ ['\n']) ++
                '\n' :: '\n' :: List.intercalate sep (q' :: rest')) := by
              rw [hdec]
          _ = stripSeps (q.dropLast ++
                '\n' :: '\n' :: ('\n' :: List.intercalate sep (q' :: rest'))) := by
              simp [List.append_assoc]
          _ = q.dropLast ++ stripSeps ('\n' :: List.intercalate sep (q' :: rest')) :=
              stripSeps_append_sep hfree₀ hlast₀ _
          _ = q.dropLast ++ '\n' :: stripSeps (List.intercalate sep (q' :: rest')) := by
              rw [stripSeps_nl_cons hIne hIhead]
          _ = q.dropLast ++ '\n' :: (q' :: rest').flatten := by rw [hih]
          _ = (q :: q' :: rest').flatten := by
              rw [List.flatten_cons, ← hdec]
              simp [List.append_assoc]
      · rw [stripSeps_append_sep hq hlast, hih]
        simp [List.flatten_cons]

/-! #### Structure of the paragraph split -/

theorem splitSep_eq_pos {c₁ c₂ : Char} (h : c₁ = '\n' ∧ c₂ = '\n')
    (rest : List Char) :
    splitSep (c₁ :: c₂ :: rest) = [] :: splitSep rest := by
  simp only [splitSep, if_pos h]

theorem splitSep_ne_nil : ∀ l : List Char, splitSep l ≠ [] := by
  intro l
  cases l with
  | nil => simp [splitSep]
  | cons c rest =>
    cases rest with
    | nil => simp [splitSep]
    | cons c₂ r₂ =>
      by_cases hp : c = '\n' ∧ c₂ = '\n'
      · rw [splitSep_eq_pos hp]
        simp
      · simp only [splitSep, if_neg hp]
        cases hsp : splitSep (c₂ :: r₂) with
        | nil => simp
        | cons p ps => simp

theorem splitSep_eq_neg {c₁ c₂ : Char} (h : ¬(c₁ = '\n' ∧ c₂ = '\n'))
    (rest : List Char) {p : List Char} {ps : List (List Char)}
    (hsp : splitSep (c₂ :: rest) = p :: ps) :
    splitSep (c₁ :: c₂ :: rest) = (c₁ :: p) :: ps := by
  simp only [splitSep, if_neg h, hsp]

theorem splitSep_head_nil : ∀ {x : Char} {xs : List Char}
    {ps : List (List Char)}, splitSep (x :: xs) = [] :: ps → x = '\n' := by
  intro x xs ps h
  cases xs with
  | nil =>
    have h' : [[x]] = [] :: ps := h
    injection h' with ha _
    simp at ha
  | cons c₂ r₂ =>
    by_cases hp : x = '\n' ∧ c₂ = '\n'
    · exact hp.1
    · obtain ⟨q, qs, hsp⟩ := List.exists_cons_of_ne_nil (splitSep_ne_nil (c₂ :: r₂))
      rw [splitSep_eq_neg hp _ hsp] at h
      injection h with ha _
      simp at ha

theorem splitSep_head_char : ∀ {x : Char} {xs : List Char} {y : Char}
    {p : List Char} {ps : List (List Char)},
    splitSep (x :: xs) = (y :: p) :: ps → y = x := by
  intro x xs y p ps h
  cases xs with
  | nil =>
    have h' : [[x]] = (y :: p) :: ps := h
    injection h' with ha _
    injection ha with hc _
    exact hc.symm
  | cons c₂ r₂ =>
    by_cases hp : x = '\n' ∧ c₂ = '\n'
    · rw [splitSep_eq_pos hp] at h
      injection h with ha _
      simp at ha
    · obtain ⟨q, qs, hsp⟩ := List.exists_cons_of_ne_nil (splitSep_ne_nil (c₂ :: r₂))
      rw [splitSep_eq_neg hp _ hsp] at h
      injection h with ha _
      injection ha with hc _
      exact hc.symm

theorem splitSep_sepFree (l : List Char) : ∀ p ∈ splitSep l, sepFreeQ p := by
  have main : ∀ (n : Nat) (l : List Char), l.length ≤ n →
      ∀ p ∈ splitSep l, sepFreeQ p := by
    intro n
    induction n with
    | zero =>
      intro l h p hp
      have hl : l = [] := List.eq_nil_of_length_eq_zero (Nat.le_zero.mp h)
      subst hl
      have : p = [] := by
        have h' : p ∈ [[]] := hp
        simpa using h'
      subst this
      exact List.chain'_nil
    | succ n ihn =>
      intro l h p hp
      cases l with
      | nil =>
        have : p = [] := by
          have h' : p ∈ [[]] := hp
          simpa using h'
        subst this
        exact List.chain'_nil
      | cons c rest =>
        cases rest with
        | nil =>
          have : p = [c] := by
            have h' : p ∈ [[c]] := hp
            simpa using h'
          subst this
          exact List.chain'_singleton c
        | cons c₂ r₂ =>
          have hlen : r₂.length + 2 ≤ n + 1 := by
            simpa using h
          by_cases hpair : c = '\n' ∧ c₂ = '\n'
          · rw [splitSep_eq_pos hpair] at hp
            rcases List.mem_cons.mp hp with rfl | hp
            · exact List.chain'_nil
            · exact ihn r₂ (by omega) p hp
          · obtain ⟨q, qs, hsp⟩ :=
              List.exists_cons_of_ne_nil (splitSep_ne_nil (c₂ :: r₂))
            rw [splitSep_eq_neg hpair _ hsp] at hp
            rcases List.mem_cons.mp hp with rfl | hp
            · have hq : sepFreeQ q :=
                ihn (c₂ :: r₂) (by simp; omega) q
                  (by rw [hsp]; exact List.mem_cons_self _ _)
              cases hq0 : q with
              | nil => exact List.chain'_singleton c
              | cons d q' =>
                have hd : d = c₂ := by
                  rw [hq0] at hsp
                  exact splitSep_head_char hsp
                subst hd
                rw [hq0] at hq
                apply List.chain'_cons.mpr
                exact ⟨fun hcontr => hpair ⟨hcontr.1, hcontr.2⟩, hq⟩
            · exact ihn (c₂ :: r₂) (by simp; omega) p
                (by rw [hsp]; exact List.mem_cons_of_mem _ hp)
  exact main l.length l le_rfl

theorem splitSep_tame (l : List Char) :
    List.Chain' (fun a _ => a.getLast? ≠ some '\n') (splitSep l) := by
  have main : ∀ (n : Nat) (l : List Char), l.length ≤ n →
      List.Chain' (fun a _ => a.getLast? ≠ some '\n') (splitSep l) := by
    intro n
    induction n with
    | zero =>
      intro l h
      have hl : l = [] := List.eq_nil_of_length_eq_zero (Nat.le_zero.mp h)
      subst hl
      exact List.chain'_singleton []
    | succ n ihn =>
      intro l h
      cases l with
      | nil => exact List.chain'_singleton []
      | cons c rest =>
        cases rest with
        | nil => exact List.chain'_singleton [c]
        | cons c₂ r₂ =>
          have hlen : r₂.length + 2 ≤ n + 1 := by
            simpa using h
          by_cases hpair : c = '\n' ∧ c₂ = '\n'
          · rw [splitSep_eq_pos hpair]
            apply List.chain'_cons'.mpr
            refine ⟨?_, ihn r₂ (by omega)⟩
            intro y _
            simp
          · obtain ⟨q, qs, hsp⟩ :=
              List.exists_cons_of_ne_nil (splitSep_ne_nil (c₂ :: r₂))
            rw [splitSep_eq_neg hpair _ hsp]
            have hih := ihn (c₂ :: r₂) (by simp; omega)
            rw [hsp] at hih
            apply List.chain'_cons'.mpr
            refine ⟨?_, (List.chain'_cons'.mp hih).2⟩
            intro y hy
            cases hq0 : q with
            | nil =>
              have hc2 : c₂ = '\n' := by
                rw [hq0] at hsp
                exact splitSep_head_nil hsp
              have hc : c ≠ '\n' := fun hc => hpair ⟨hc, hc2⟩
              simp [hc]
            | cons d q' =>
              have hql : q.getLast? ≠ some '\n' :=
                (List.chain'_cons'.mp hih).1 y hy
              rw [hq0] at hql
              rw [List.getLast?_cons_cons]
              exact hql
  exact main l.length l le_rfl

theorem splitSep_flatten (l : List Char) :
    (splitSep l).flatten = stripSeps l := by
  have main : ∀ (n : Nat) (l : List Char), l.length ≤ n →
      (splitSep l).flatten = stripSeps l := by
    intro n
    induction n with
    | zero =>
      intro l h
      have hl : l = [] := List.eq_nil_of_length_eq_zero (Nat.le_zero.mp h)
      subst hl
      rfl
    | succ n ihn =>
      intro l h
      cases l with
      | nil => rfl
      | cons c rest =>
        cases rest with
        | nil => rfl
        | cons c₂ r₂ =>
          have hlen : r₂.length + 2 ≤ n + 1 := by
            simpa using h
          by_cases hpair : c = '\n' ∧ c₂ = '\n'
          · rw [splitSep_eq_pos hpair]
            obtain ⟨h1, h2⟩ := hpair
            subst h1
            subst h2
            rw [stripSeps_cons₂_pos]
            simp only [List.flatten_cons, List.nil_append]
            exact ihn r₂ (by omega)
          · obtain ⟨q, qs, hsp⟩ :=
              List.exists_cons_of_ne_nil (splitSep_ne_nil (c₂ :: r₂))
            rw [splitSep_eq_neg hpair _ hsp, stripSeps_cons₂_neg hpair]
            have hih := ihn (c₂ :: r₂) (by simp; omega)
            rw [hsp] at hih
            simp only [List.flatten_cons] at hih ⊢
            rw [List.cons_append, hih]
  exact main l.length l le_rfl

/-! #### Goodness of the forced slices as a piece sequence -/

theorem take_head? {l : List Char} {n : Nat} (hn : 1 ≤ n) :
    (l.take n).head? = l.head? := by
  cases l with
  | nil => simp
  | cons c cs =>
    cases n with
    | zero => omega
    | succ n => simp [List.take]

theorem forcedSlices_sepFree {mc : Nat} (hmc : 1 ≤ mc) (l : List Char)
    (hl : sepFreeQ l) : ∀ s ∈ forcedSlices mc l, sepFreeQ s := by
  have main : ∀ (n : Nat) (l : List Char), l.length ≤ n → sepFreeQ l →
      ∀ s ∈ forcedSlices mc l, sepFreeQ s := by
    intro n
    induction n with
    | zero =>
      intro l h _ s hs
      have hl0 : l = [] := List.eq_nil_of_length_eq_zero (Nat.le_zero.mp h)
      subst hl0
      simp [forcedSlices_nil] at hs
    | succ n ihn =>
      intro l h hfree s hs
      by_cases hl0 : l = []
      · subst hl0
        simp [forcedSlices_nil] at hs
      · rw [forcedSlices_cons hmc hl0] at hs
        rcases List.mem_cons.mp hs with rfl | hs
        · exact List.Chain'.take hfree mc
        · exact ihn (l.drop mc)
            (by
              have := List.length_pos.mpr hl0
              simp only [List.length_drop]
              omega)
            (List.Chain'.drop hfree mc) s hs
  exact main l.length l le_rfl hl

theorem forcedSlices_chain {mc : Nat} (hmc : 1 ≤ mc) (l : List Char)
    (hl : sepFreeQ l) : List.Chain' Rel (forcedSlices mc l) := by
  have main : ∀ (n : Nat) (l : List Char), l.length ≤ n → sepFreeQ l →
      List.Chain' Rel (forcedSlices mc l) := by
    intro n
    induction n with
    | zero =>
      intro l h _
      have hl0 : l = [] := List.eq_nil_of_length_eq_zero (Nat.le_zero.mp h)
      subst hl0
      exact List.chain'_nil
    | succ n ihn =>
      intro l h hfree
      by_cases hl0 : l = []
      · subst hl0
        exact List.chain'_nil
      · rw [forcedSlices_cons hmc hl0]
        apply List.chain'_cons'.mpr
        refine ⟨?_, ihn (l.drop mc)
          (by
            have := List.length_pos.mpr hl0
            simp only [List.length_drop]
            omega)
          (List.Chain'.drop hfree mc)⟩
        intro y hy
        have hdne : l.drop mc ≠ [] := by
          intro hd
          rw [hd, forcedSlices_nil] at hy
          simp at hy
        rw [forcedSlices_cons hmc hdne] at hy
        simp only [List.head?_cons, Option.mem_def, Option.some.injEq] at hy
        subst hy
        intro hglast
        constructor
        · simp only [ne_eq, List.take_eq_nil_iff, not_or]
          exact ⟨by omega, hdne⟩
        · rw [take_head? hmc]
          obtain ⟨hd, htl, hhd⟩ := List.exists_cons_of_ne_nil hdne
          have hsplit := hfree
          rw [← List.take_append_drop mc l] at hsplit
          have hb := (List.chain'_append.mp hsplit).2.2
          have hhead : (l.drop mc).head? = some hd := by rw [hhd]; rfl
          have := hb '\n' hglast hd (by rw [hhd]; simp)
          intro hcontr
          rw [hhead] at hcontr
          have : hd = '\n' := Option.some.inj hcontr
          exact (hb '\n' hglast hd (by rw [hhd]; simp)) ⟨rfl, this⟩
  exact main l.length l le_rfl hl

theorem flatten_getLast? {LS : List (List Char)} {s : List Char}
    (h : LS.getLast? = some s) (hs : s ≠ []) :
    LS.flatten.getLast? = s.getLast? := by
  have hne : LS ≠ [] := by
    intro h0
    rw [h0] at h
    simp at h
  have hgl : LS.getLast hne = s := by
    have h2 := List.getLast?_eq_getLast LS hne
    rw [h2] at h
    exact Option.some.inj h
  have hdec : LS.dropLast ++ [LS.getLast hne] = LS :=
    List.dropLast_append_getLast hne
  rw [hgl] at hdec
  rw [← hdec, List.flatten_append]
  simp only [List.flatten_cons, List.flatten_nil, List.append_nil]
  exact List.getLast?_append_of_ne_nil _ hs

/-! #### The chunker state as grouped pieces -/

/-- The abstraction relating the concrete Python state `(chunks,
current_chunk)` to grouped piece lists: each finished chunk is the
separator-intercalation of a non-empty group of pieces, and the accumulator
is the intercalation of a (possibly empty) piece list `cs`; `cs` is empty
exactly when the Python accumulator string is falsy. -/
def AbsRep (st : List (List Char) × List Char)
    (gs : List (List (List Char))) (cs : List (List Char)) : Prop :=
  st.1 = gs.map (List.intercalate sep) ∧
  st.2 = List.intercalate sep cs ∧
  (∀ g ∈ gs, g ≠ []) ∧
  (cs = [] ↔ st.2 = [])

theorem icalate_snoc {cs : List (List Char)} (h : cs ≠ []) (p : List Char) :
    List.intercalate sep (cs ++ [p]) = List.intercalate sep cs ++ sep ++ p := by
  rw [icalate_append h (by simp), icalate_single]

theorem finishChunks_absrep {st : List (List Char) × List Char}
    {gs : List (List (List Char))} {cs : List (List Char)}
    (h : AbsRep st gs cs) :
    ∃ GS : List (List (List Char)),
      finishChunks st = GS.map (List.intercalate sep) ∧
      (∀ g ∈ GS, g ≠ []) ∧ GS.flatten = gs.flatten ++ cs := by
  obtain ⟨h1, h2, h3, h4⟩ := h
  by_cases hc : st.2 = []
  · refine ⟨gs, ?_, h3, ?_⟩
    · rw [finishChunks, if_pos hc, h1]
    · rw [h4.mpr hc]
      simp
  · refine ⟨gs ++ [cs], ?_, ?_, ?_⟩
    · rw [finishChunks, if_neg hc, h1, h2]
      simp
    · intro g hg
      rcases List.mem_append.mp hg with hg | hg
      · exact h3 g hg
      · simp only [List.mem_singleton] at hg
        subst hg
        exact fun h0 => hc (h4.mp h0)
    · simp

theorem sliceStep_absrep {mc : Nat} {st : List (List Char) × List Char}
    {gs : List (List (List Char))} {cs : List (List Char)} {s : List Char}
    (h : AbsRep st gs cs) (hs : s ≠ []) :
    ∃ gs' cs', AbsRep (sliceStep mc st s) gs' cs' ∧
      gs'.flatten ++ cs' = (gs.flatten ++ cs) ++ [s] := by
  obtain ⟨h1, h2, h3, h4⟩ := h
  unfold sliceStep
  by_cases hcond : st.2.length + s.length + 2 ≤ mc
  · rw [if_pos hcond]
    by_cases hc : st.2 = []
    · have hcs : cs = [] := h4.mpr hc
      refine ⟨gs, [s], ⟨h1, ?_, h3, ?_⟩, ?_⟩
      · show chunkJoin st.2 s = List.intercalate sep [s]
        rw [chunkJoin, if_pos hc, icalate_single]
      · constructor
        · intro h0
          simp at h0
        · intro h0
          rw [show (gs.map (List.intercalate sep), chunkJoin st.2 s).2 =
            chunkJoin st.2 s from rfl, chunkJoin, if_pos hc] at h0
          exact absurd h0 hs
      · rw [hcs]
        simp
    · have hcs : cs ≠ [] := fun h0 => hc (h4.mp h0)
      refine ⟨gs, cs ++ [s], ⟨h1, ?_, h3, ?_⟩, ?_⟩
      · show chunkJoin st.2 s = List.intercalate sep (cs ++ [s])
        rw [chunkJoin, if_neg hc, icalate_snoc hcs, h2]
      · constructor
        · intro h0
          exact absurd h0 (by simp)
        · intro h0
          rw [show (gs.map (List.intercalate sep), chunkJoin st.2 s).2 =
            chunkJoin st.2 s from rfl, chunkJoin, if_neg hc] at h0
          simp [sep] at h0
      · simp [List.append_assoc]
  · rw [if_neg hcond]
    obtain ⟨GS, hGS1, hGS2, hGS3⟩ := finishChunks_absrep ⟨h1, h2, h3, h4⟩
    by_cases hms : mc ≤ s.length
    · rw [if_pos hms]
      refine ⟨GS ++ [[s]], [], ⟨?_, ?_, ?_, ?_⟩, ?_⟩
      · show finishChunks st ++ [s] = (GS ++ [[s]]).map (List.intercalate sep)
        rw [List.map_append, hGS1]
        simp [icalate_single]
      · show ([] : List Char) = List.intercalate sep []
        rfl
      · intro g hg
        rcases List.mem_append.mp hg with hg | hg
        · exact hGS2 g hg
        · simp only [List.mem_singleton] at hg
          subst hg
          simp
      · simp
      · rw [List.flatten_append, hGS3]
        simp [List.append_assoc]
    · rw [if_neg hms]
      refine ⟨GS, [s], ⟨?_, ?_, hGS2, ?_⟩, ?_⟩
      · exact hGS1
      · show s = List.intercalate sep [s]
        rw [icalate_single]
      · constructor
        · intro h0
          simp at h0
        · intro h0
          exact absurd h0 hs
      · rw [hGS3]

theorem foldl_sliceStep_absrep {mc : Nat} :
    ∀ (ss : List (List Char)) (st : List (List Char) × List Char)
      (gs : List (List (List Char))) (cs : List (List Char)),
      AbsRep st gs cs → (∀ s ∈ ss, s ≠ []) →
      ∃ gs' cs', AbsRep (ss.foldl (sliceStep mc) st) gs' cs' ∧
        gs'.flatten ++ cs' = (gs.flatten ++ cs) ++ ss := by
  intro ss
  induction ss with
  | nil =>
    intro st gs cs h _
    exact ⟨gs, cs, h, by simp⟩
  | cons s ss' ih =>
    intro st gs cs h hs
    obtain ⟨gs₁, cs₁, h₁, hfl₁⟩ := sliceStep_absrep h (hs s (by simp))
    obtain ⟨gs₂, cs₂, h₂, hfl₂⟩ :=
      ih _ _ _ h₁ (fun x hx => hs x (List.mem_cons_of_mem _ hx))
    refine ⟨gs₂, cs₂, h₂, ?_⟩
    rw [hfl₂, hfl₁]
    simp [List.append_assoc]

theorem mem_getLast?_singleton {p q : List Char}
    (hq : q ∈ ([p] : List (List Char)).getLast?) : q = p := by
  have h0 : ([p] : List (List Char)).getLast? = some q := Option.mem_def.mp hq
  have h1 : some p = some q := h0
  exact (Option.some.inj h1).symm

theorem mem_getLast?_pair {p q : List Char}
    (hq : q ∈ ([[], p] : List (List Char)).getLast?) : q = p := by
  rw [List.getLast?_cons_cons] at hq
  exact mem_getLast?_singleton hq

/-- One paragraph step preserves the representation and appends an explicit
piece list `ex` (the paragraph itself, its forced slices, or the empty
string inserted by the unguarded flush) whose concatenation is exactly the
paragraph. -/
theorem paraStep_absrep {mc : Nat} {st : List (List Char) × List Char}
    {gs : List (List (List Char))} {cs : List (List Char)} {p : List Char}
    (hmc : 1 ≤ mc) (h : AbsRep st gs cs) :
    ∃ gs' cs' ex, AbsRep (paraStep mc st p) gs' cs' ∧
      gs'.flatten ++ cs' = (gs.flatten ++ cs) ++ ex ∧
      ex.flatten = p ∧
      (sepFreeQ p → ∀ q ∈ ex, sepFreeQ q) ∧
      (sepFreeQ p → List.Chain' Rel ex) ∧
      (p.getLast? ≠ some '\n' → ∀ q ∈ ex.getLast?, q.getLast? ≠ some '\n') := by
  obtain ⟨h1, h2, h3, h4⟩ := h
  unfold paraStep
  by_cases hbig : mc < p.length
  · rw [if_pos hbig]
    have hpne : p ≠ [] := by
      intro h0
      rw [h0] at hbig
      exact absurd hbig (by simp)
    obtain ⟨gs', cs', h', hfl⟩ :=
      foldl_sliceStep_absrep (forcedSlices mc p) st gs cs ⟨h1, h2, h3, h4⟩
        (fun s hs => (forcedSlices_mem hmc p s hs).1)
    refine ⟨gs', cs', forcedSlices mc p, h', hfl,
      forcedSlices_flatten hmc p, ?_, ?_, ?_⟩
    · intro hfree s hs
      exact forcedSlices_sepFree hmc p hfree s hs
    · intro hfree
      exact forcedSlices_chain hmc p hfree
    · intro hlastp q hq
      have hqq : (forcedSlices mc p).getLast? = some q := Option.mem_def.mp hq
      have hqne : q ≠ [] :=
        (forcedSlices_mem hmc p q (List.mem_of_getLast?_eq_some hqq)).1
      have hlast := flatten_getLast? hqq hqne
      rw [forcedSlices_flatten hmc p] at hlast
      rw [← hlast]
      exact hlastp
  · rw [if_neg hbig]
    by_cases hcond : st.2.length + p.length + 2 ≤ mc
    · rw [if_pos hcond]
      by_cases hc : st.2 = []
      · have hcs : cs = [] := h4.mpr hc
        by_cases hp0 : p = []
        · subst hp0
          refine ⟨gs, [], [], ⟨h1, ?_, h3, ?_⟩, ?_, rfl, ?_, ?_, ?_⟩
          · show chunkJoin st.2 [] = List.intercalate sep []
            rw [chunkJoin, if_pos hc, icalate_nil]
          · constructor
            · intro _
              show chunkJoin st.2 [] = []
              rw [chunkJoin, if_pos hc]
            · intro _
              rfl
          · simp [hcs]
          · intro _ q hq
            simp at hq
          · intro _
            exact List.chain'_nil
          · intro _ q hq
            simp at hq
        · refine ⟨gs, [p], [p], ⟨h1, ?_, h3, ?_⟩, ?_, by simp, ?_, ?_, ?_⟩
          · show chunkJoin st.2 p = List.intercalate sep [p]
            rw [chunkJoin, if_pos hc, icalate_single]
          · constructor
            · intro h0
              simp at h0
            · intro h0
              rw [show (gs.map (List.intercalate sep),
                chunkJoin st.2 p).2 = chunkJoin st.2 p from rfl,
                chunkJoin, if_pos hc] at h0
              exact absurd h0 hp0
          · simp [hcs, List.append_assoc]
          · intro hfree q hq
            simp only [List.mem_singleton] at hq
            subst hq
            exact hfree
          · intro _
            exact List.chain'_singleton p
          · intro hlastp q hq
            rw [mem_getLast?_singleton hq]
            exact hlastp
      · have hcs : cs ≠ [] := fun h0 => hc (h4.mp h0)
        refine ⟨gs, cs ++ [p], [p], ⟨h1, ?_, h3, ?_⟩, ?_, by simp, ?_, ?_, ?_⟩
        · show chunkJoin st.2 p = List.intercalate sep (cs ++ [p])
          rw [chunkJoin, if_neg hc, icalate_snoc hcs, h2]
        · constructor
          · intro h0
            exact absurd h0 (by simp)
          · intro h0
            rw [show (gs.map (List.intercalate sep),
              chunkJoin st.2 p).2 = chunkJoin st.2 p from rfl,
              chunkJoin, if_neg hc] at h0
            simp [sep] at h0
        · simp [List.append_assoc]
        · intro hfree q hq
          simp only [List.mem_singleton] at hq
          subst hq
          exact hfree
        · intro _
          exact List.chain'_singleton p
        · intro hlastp q hq
          rw [mem_getLast?_singleton hq]
          exact hlastp
    · rw [if_neg hcond]
      by_cases hc : st.2 = []
      · have hcs : cs = [] := h4.mpr hc
        by_cases hp0 : p = []
        · subst hp0
          refine ⟨gs ++ [[[]]], [], [[]], ⟨?_, ?_, ?_, ?_⟩, ?_, by simp, ?_, ?_, ?_⟩
          · show st.1 ++ [st.2] = (gs ++ [[[]]]).map (List.intercalate sep)
            rw [List.map_append, h1, hc]
            simp [icalate_single]
          · show ([] : List Char) = List.intercalate sep []
            rfl
          · intro g hg
            rcases List.mem_append.mp hg with hg | hg
            · exact h3 g hg
            · simp only [List.mem_singleton] at hg
              subst hg
              simp
          · simp
          · rw [List.flatten_append, hcs]
            simp
          · intro _ q hq
            simp only [List.mem_singleton] at hq
            subst hq
            exact List.chain'_nil
          · intro _
            exact List.chain'_singleton []
          · intro _ q hq
            rw [mem_getLast?_singleton hq]
            simp
        · refine ⟨gs ++ [[[]]], [p], [[], p], ⟨?_, ?_, ?_, ?_⟩, ?_, by simp, ?_, ?_, ?_⟩
          · show st.1 ++ [st.2] = (gs ++ [[[]]]).map (List.intercalate sep)
            rw [List.map_append, h1, hc]
            simp [icalate_single]
          · show p = List.intercalate sep [p]
            rw [icalate_single]
          · intro g hg
            rcases List.mem_append.mp hg with hg | hg
            · exact h3 g hg
            · simp only [List.mem_singleton] at hg
              subst hg
              simp
          · constructor
            · intro h0
              simp at h0
            · intro h0
              exact absurd h0 hp0
          · rw [List.flatten_append, hcs]
            simp [List.append_assoc]
          · intro hfree q hq
            rcases List.mem_cons.mp hq with rfl | hq
            · exact List.chain'_nil
            · simp only [List.mem_singleton] at hq
              subst hq
              exact hfree
          · intro _
            apply List.chain'_pair.mpr
            intro h0
            simp at h0
          · intro hlastp q hq
            rw [mem_getLast?_pair hq]
            exact hlastp
      · have hcs : cs ≠ [] := fun h0 => hc (h4.mp h0)
        by_cases hp0 : p = []
        · subst hp0
          refine ⟨gs ++ [cs], [], [], ⟨?_, ?_, ?_, ?_⟩, ?_, rfl, ?_, ?_, ?_⟩
          · show st.1 ++ [st.2] = (gs ++ [cs]).map (List.intercalate sep)
            rw [List.map_append, h1, h2]
            simp
          · show ([] : List Char) = List.intercalate sep []
            rfl
          · intro g hg
            rcases List.mem_append.mp hg with hg | hg
            · exact h3 g hg
            · simp only [List.mem_singleton] at hg
              subst hg
              exact hcs
          · simp
          · rw [List.flatten_append]
            simp [List.append_assoc]
          · intro _ q hq
            simp at hq
          · intro _
            exact List.chain'_nil
          · intro _ q hq
            simp at hq
        · refine ⟨gs ++ [cs], [p], [p], ⟨?_, ?_, ?_, ?_⟩, ?_, by simp, ?_, ?_, ?_⟩
          · show st.1 ++ [st.2] = (gs ++ [cs]).map (List.intercalate sep)
            rw [List.map_append, h1, h2]
            simp
          · show p = List.intercalate sep [p]
            rw [icalate_single]
          · intro g hg
            rcases List.mem_append.mp hg with hg | hg
            · exact h3 g hg
            · simp only [List.mem_singleton] at hg
              subst hg
              exact hcs
          · constructor
            · intro h0
              simp at h0
            · intro h0
              exact absurd h0 hp0
          · rw [List.flatten_append]
            simp [List.append_assoc]
          · intro hfree q hq
            simp only [List.mem_singleton] at hq
            subst hq
            exact hfree
          · intro _
            exact List.chain'_singleton p
          · intro hlastp q hq
            rw [mem_getLast?_singleton hq]
            exact hlastp

/-- Folding the whole paragraph list preserves the representation, the
character content, the separator-freedom of all pieces, and the safe
adjacency chain.  The `Chain'` hypothesis on `ps` records that no paragraph
before the last one ends in `'\n'` — a structural property of the greedy
paragraph split. -/
theorem foldl_paraStep_absrep {mc : Nat} (hmc : 1 ≤ mc) :
    ∀ (ps : List (List Char)) (st : List (List Char) × List Char)
      (gs : List (List (List Char))) (cs : List (List Char)),
      AbsRep st gs cs →
      (∀ q ∈ ps, sepFreeQ q) →
      List.Chain' (fun a _ => a.getLast? ≠ some '\n') ps →
      (∀ q ∈ gs.flatten ++ cs, sepFreeQ q) →
      List.Chain' Rel (gs.flatten ++ cs) →
      (∀ q ∈ (gs.flatten ++ cs).getLast?, q.getLast? ≠ some '\n') →
      ∃ gs' cs', AbsRep (ps.foldl (paraStep mc) st) gs' cs' ∧
        (gs'.flatten ++ cs').flatten =
          (gs.flatten ++ cs).flatten ++ ps.flatten ∧
        (∀ q ∈ gs'.flatten ++ cs', sepFreeQ q) ∧
        List.Chain' Rel (gs'.flatten ++ cs') := by
  intro ps
  induction ps with
  | nil =>
    intro st gs cs h _ _ hfree hchain _
    exact ⟨gs, cs, h, by simp, hfree, hchain⟩
  | cons p rest ih =>
    intro st gs cs h hps htame hfree hchain hlastfl
    obtain ⟨gs₁, cs₁, ex, h₁, hfl₁, hexflat, hexfree, hexchain, hexlast⟩ :=
      paraStep_absrep (p := p) hmc h
    have hp : sepFreeQ p := hps p (by simp)
    have hbound : ∀ x ∈ (gs.flatten ++ cs).getLast?, ∀ y ∈ ex.head?, Rel x y := by
      intro x hx y _ hxl
      exact absurd hxl (hlastfl x hx)
    have hchain₁ : List.Chain' Rel (gs₁.flatten ++ cs₁) := by
      rw [hfl₁]
      exact List.chain'_append.mpr ⟨hchain, hexchain hp, hbound⟩
    have hfree₁ : ∀ q ∈ gs₁.flatten ++ cs₁, sepFreeQ q := by
      rw [hfl₁]
      intro q hq
      rcases List.mem_append.mp hq with hq | hq
      · exact hfree q hq
      · exact hexfree hp q hq
    cases rest with
    | nil =>
      refine ⟨gs₁, cs₁, h₁, ?_, hfree₁, hchain₁⟩
      rw [hfl₁]
      simp only [List.flatten_append, List.flatten_cons, List.flatten_nil,
        List.append_nil]
      rw [hexflat]
    | cons r rs =>
      have hplast : p.getLast? ≠ some '\n' := (List.chain'_cons.mp htame).1
      have hlast₁ : ∀ q ∈ (gs₁.flatten ++ cs₁).getLast?,
          q.getLast? ≠ some '\n' := by
        intro q hq
        rw [hfl₁] at hq
        by_cases hex0 : ex = []
        · rw [hex0, List.append_nil] at hq
          exact hlastfl q hq
        · rw [List.getLast?_append_of_ne_nil _ hex0] at hq
          exact hexlast hplast q hq
      obtain ⟨gs₂, cs₂, h₂, hfl₂, hfree₂, hchain₂⟩ :=
        ih _ _ _ h₁ (fun q hq => hps q (List.mem_cons_of_mem _ hq))
          ((List.chain'_cons'.mp htame).2) hfree₁ hchain₁ hlast₁
      refine ⟨gs₂, cs₂, h₂, ?_, hfree₂, hchain₂⟩
      rw [hfl₂, hfl₁]
      simp only [List.flatten_append, List.flatten_cons]
      rw [hexflat]
      simp [List.append_assoc]

/-- C2: for every input text and every `max_chars ≥ 1`, re-joining the
chunks of `split_text_into_chunks` with the paragraph separator `"\n\n"`
and then deleting all (greedy-leftmost) separator occurrences yields
exactly the non-separator content of the original text: no character of
any paragraph body is lost, duplicated, or reordered, and the output
differs from the input only in separator-style whitespace at chunk
joins. -/
theorem c2_lossless_round_trip {text : List Char} {mc : Nat} (hmc : 1 ≤ mc) :
    stripSeps (List.intercalate sep (split_text_into_chunks text mc)) =
      stripSeps text := by
  obtain ⟨gs, cs, habs, hflat, hfree, hchain⟩ :=
    foldl_paraStep_absrep hmc (splitSep text) ([], []) [] []
      ⟨rfl, rfl, by simp, by simp⟩
      (splitSep_sepFree text) (splitSep_tame text)
      (by simp) (by simp) (by simp)
  obtain ⟨GS, hGS1, hGS2, hGS3⟩ := finishChunks_absrep habs
  show stripSeps (List.intercalate sep
    (finishChunks ((splitSep text).foldl (paraStep mc) ([], [])))) =
      stripSeps text
  rw [hGS1, icalate_nested hGS2, hGS3, stripSeps_icalate hfree hchain]
  have h0 : (gs.flatten ++ cs).flatten = (splitSep text).flatten := by
    rw [hflat]
    simp
  rw [h0, splitSep_flatten]

theorem c2_witness :
    stripSeps (List.intercalate sep
      (split_text_into_chunks ['a', 'b', '\n', '\n', 'c'] 2)) =
      stripSeps ['a', 'b', '\n', '\n', 'c'] :=
  c2_lossless_round_trip (by decide)

end PdfTranslator
